import Mathlib

/-!
Shallow embedding of the track-recommendation composition service
(`recommendations_service.py` and its collaborators).

Track identifiers and users are opaque integers (`Int`).  Similarity
scores are the `track_seq` values returned by the features service;
they are numeric weights whose only role is ordering, modelled as `Int`.

Upstream HTTP calls are modelled by a `Resp` value: `exn` stands for a
raised exception during the request or response parsing, `badStatus`
for a non-200 status code, and `ok` carries the parsed payload.  A
request-time environment `Env` fixes the responses the two upstream
services give during one request.
-/

/-- Offline recommendation store (`Recommendations` class): a map from
user id to that user's precomputed personal list, plus the global
default list loaded from `top_popular.parquet`. -/
structure Recommendations where
  personal : Int → Option (List Int)
  defaultList : List Int

/-- Method `Recommendations.get`: the personal list for the user truncated to
`k`; when the user id is absent (the `KeyError` branch), the default
list truncated to `k`. -/
def Recommendations.get (self : Recommendations) (user_id : Int) (k : Nat) : List Int :=
  match self.personal user_id with
  | some recs => recs.take k
  | none => self.defaultList.take k

/-- Loop of `dedup_ids`: walk the list keeping the ids not yet seen,
threading the `seen` set (modelled as a list). -/
def dedupGo (seen : List Int) : List Int → List Int
  | [] => []
  | i :: rest => if i ∈ seen then dedupGo seen rest else i :: dedupGo (i :: seen) rest

/-- Function `dedup_ids`: remove duplicates keeping the first occurrence of each id. -/
def dedup_ids (ids : List Int) : List Int := dedupGo [] ids

/-- Outcome of one upstream HTTP call. -/
inductive Resp (α : Type) where
  | exn : Resp α
  | badStatus : Resp α
  | ok : α → Resp α
deriving DecidableEq

/-- One step of the similar-items fan-out loop: a raised exception or a
non-200 status is skipped (`continue`), a 200 response appends its
`item_id_2` list to `items` and its `track_seq` list to `scores`. -/
def poolStep (acc : List Int × List Int) (r : Resp (List Int × List Int)) :
    List Int × List Int :=
  match r with
  | .exn => acc
  | .badStatus => acc
  | .ok (its, scs) => (acc.1 ++ its, acc.2 ++ scs)

/-- The fan-out loop of `recommendations_online`: for each history track
pool the similarity responses into `(items, scores)`. -/
def poolSimilar (sim : Int → Resp (List Int × List Int)) (events : List Int) :
    List Int × List Int :=
  events.foldl (fun acc t => poolStep acc (sim t)) ([], [])

/-- Insert one scored pair into a list sorted by score descending,
placing it before the first entry with a score `≤` its own (so an
earlier-pooled pair stays in front on ties). -/
def insertScored (p : Int × Int) : List (Int × Int) → List (Int × Int)
  | [] => [p]
  | q :: l => if q.2 ≤ p.2 then p :: q :: l else q :: insertScored p l

/-- Model of `sorted(combined, key=lambda x: x[1], reverse=True)`: a stable sort
by score descending.  Python's sort is stable, so any stable sort with
the same comparator computes the same list; insertion sort is used. -/
def sortByScoreDesc : List (Int × Int) → List (Int × Int)
  | [] => []
  | p :: l => insertScored p (sortByScoreDesc l)

/-- The candidate computation of `recommendations_online` once a
non-empty history is in hand: pool the similarity responses, zip items
with scores, sort by score descending, drop scores, deduplicate. -/
def onlineFromEvents (sim : Int → Resp (List Int × List Int)) (events : List Int) :
    List Int :=
  let pooled := poolSimilar sim events
  let combined := pooled.1.zip pooled.2
  let sortedC := sortByScoreDesc combined
  dedup_ids (sortedC.map Prod.fst)

/-- The upstream responses observed by one request: the history
service's answer, the features service's answer per queried track, and
the offline store. -/
structure Env where
  histResp : Resp (List Int)
  simResp : Int → Resp (List Int × List Int)
  store : Recommendations

/-- Body of the `recommendations_online` handler inside its outer
`try`: a raised history request is an error (to be caught), a non-200
history status or an empty history returns `[]`, otherwise the online
candidates are assembled.  Per-track similarity failures are already
absorbed inside `poolSimilar`. -/
def onlineBody (env : Env) : Except Unit (List Int) :=
  match env.histResp with
  | .exn => Except.error ()
  | .badStatus => Except.ok []
  | .ok events =>
    if events.isEmpty then Except.ok []
    else Except.ok (onlineFromEvents env.simResp events)

/-- The outer `except Exception` of a handler: any error becomes a
normally returned empty list. -/
def catchToEmpty (c : Except Unit (List Int)) : Except Unit (List Int) :=
  match c with
  | .ok l => .ok l
  | .error _ => .ok []

/-- The `/recommendations_online` endpoint as the exception-aware
computation: its body wrapped in the outer catch. -/
def recommendations_online_handler (env : Env) : Except Unit (List Int) :=
  catchToEmpty (onlineBody env)

/-- The list returned by `/recommendations_online`. -/
def recommendations_online (env : Env) : List Int :=
  match recommendations_online_handler env with
  | .ok l => l
  | .error _ => []

/-- The `/recommendations_offline` endpoint: a pass-through to
`Recommendations.get`. -/
def recommendations_offline (env : Env) (user_id : Int) (k : Nat) : List Int :=
  env.store.get user_id k

/-- The interleaving loop of the `/recommendations` handler:
`for i in range(min_length)` append `offline[i]` then `online[i]`. -/
def interleaveLoop (off onl : List Int) : Nat → List Int
  | 0 => []
  | n + 1 => interleaveLoop off onl n ++ [off.getD n 0, onl.getD n 0]

/-- List `recs_blended` before dedup: the interleaved prefix followed by the
remainders of both lists past `min_length`. -/
def recsBlended (off onl : List Int) : List Int :=
  let m := min off.length onl.length
  interleaveLoop off onl m ++ off.drop m ++ onl.drop m

/-- The blend of the `/recommendations` handler: interleave, append
remainders, deduplicate, truncate to `k`. -/
def blendRecs (off onl : List Int) (k : Nat) : List Int :=
  (dedup_ids (recsBlended off onl)).take k

/-- Body of the `/recommendations` handler inside its outer `try`: the
offline and online lists are obtained from calls that return normally,
then blended.  The `isinstance` checks always pass in the typed model,
so the body itself raises nothing. -/
def recommendations_body (env : Env) (user_id : Int) (k : Nat) : Except Unit (List Int) :=
  Except.ok (blendRecs (recommendations_offline env user_id k) (recommendations_online env) k)

/-- The `/recommendations` endpoint as the exception-aware computation:
its body wrapped in the outer catch. -/
def recommendations_handler (env : Env) (user_id : Int) (k : Nat) : Except Unit (List Int) :=
  catchToEmpty (recommendations_body env user_id k)

/-- The list returned by `/recommendations`. -/
def recommendations_ep (env : Env) (user_id : Int) (k : Nat) : List Int :=
  match recommendations_handler env user_id k with
  | .ok l => l
  | .error _ => []

/-- Blend algorithm as the specification words it: interleave pairwise
up to `m = min` of the lengths, append the remainder of the longer
list in its original order, deduplicate keeping first occurrences,
truncate to `k`. -/
def specBlend (off onl : List Int) (k : Nat) : List Int :=
  let m := min off.length onl.length
  let interleaved := interleaveLoop off onl m
  let rest := if off.length < onl.length then onl.drop m else off.drop m
  (dedup_ids (interleaved ++ rest)).take k

/-- Structural form of the interleaving loop, used to reason about it. -/
def interleaveAux : List Int → List Int → List Int
  | x :: xs, y :: ys => x :: y :: interleaveAux xs ys
  | _, _ => []

/-- The similarity response for one track either failed (exception or
non-200) or carried an empty `item_id_2` list. -/
def SimFailedOrEmpty (r : Resp (List Int × List Int)) : Prop :=
  r = .exn ∨ r = .badStatus ∨ ∃ scs, r = .ok ([], scs)

/-! ### Lemmas about the interleaving loop -/

theorem interleaveLoop_succ_cons (x y : Int) (xs ys : List Int) (n : Nat) :
    interleaveLoop (x :: xs) (y :: ys) (n + 1) = x :: y :: interleaveLoop xs ys n := by
  induction n with
  | zero => simp [interleaveLoop]
  | succ n ih =>
      rw [interleaveLoop, ih, interleaveLoop]
      simp [List.getD_cons_succ]

theorem interleaveLoop_min_eq (off onl : List Int) :
    interleaveLoop off onl (min off.length onl.length) = interleaveAux off onl := by
  induction off generalizing onl with
  | nil => cases onl <;> simp [interleaveLoop, interleaveAux]
  | cons x xs ih =>
      cases onl with
      | nil => simp [interleaveLoop, interleaveAux]
      | cons y ys =>
          rw [List.length_cons, List.length_cons, Nat.succ_min_succ,
            interleaveLoop_succ_cons, interleaveAux, ih]

theorem mem_interleaveAux {x : Int} :
    ∀ (off onl : List Int), x ∈ interleaveAux off onl → x ∈ off ∨ x ∈ onl := by
  intro off
  induction off with
  | nil => intro onl h; simp [interleaveAux] at h
  | cons a as ih =>
      intro onl h
      cases onl with
      | nil => simp [interleaveAux] at h
      | cons b bs =>
          rw [interleaveAux, List.mem_cons, List.mem_cons] at h
          rcases h with h | h | h
          · exact Or.inl (by simp [h])
          · exact Or.inr (by simp [h])
          · rcases ih bs h with h' | h'
            · exact Or.inl (List.mem_cons_of_mem _ h')
            · exact Or.inr (List.mem_cons_of_mem _ h')

/-! ### Lemmas about deduplication -/

theorem mem_of_mem_dedupGo {x : Int} :
    ∀ (l seen : List Int), x ∈ dedupGo seen l → x ∈ l := by
  intro l
  induction l with
  | nil => intro seen h; simp [dedupGo] at h
  | cons i rest ih =>
      intro seen h
      rw [dedupGo] at h
      by_cases hi : i ∈ seen
      · rw [if_pos hi] at h
        exact List.mem_cons_of_mem _ (ih seen h)
      · rw [if_neg hi, List.mem_cons] at h
        rcases h with h | h
        · simp [h]
        · exact List.mem_cons_of_mem _ (ih (i :: seen) h)

theorem not_mem_seen_of_mem_dedupGo {x : Int} :
    ∀ (l seen : List Int), x ∈ dedupGo seen l → x ∉ seen := by
  intro l
  induction l with
  | nil => intro seen h; simp [dedupGo] at h
  | cons i rest ih =>
      intro seen h
      rw [dedupGo] at h
      by_cases hi : i ∈ seen
      · rw [if_pos hi] at h
        exact ih seen h
      · rw [if_neg hi, List.mem_cons] at h
        rcases h with h | h
        · subst h; exact hi
        · intro hs
          exact ih (i :: seen) h (List.mem_cons_of_mem _ hs)

theorem nodup_dedupGo : ∀ (l seen : List Int), (dedupGo seen l).Nodup := by
  intro l
  induction l with
  | nil => intro seen; simp [dedupGo]
  | cons i rest ih =>
      intro seen
      rw [dedupGo]
      by_cases hi : i ∈ seen
      · rw [if_pos hi]
        exact ih seen
      · rw [if_neg hi]
        refine List.nodup_cons.2 ⟨?_, ih (i :: seen)⟩
        intro hmem
        exact not_mem_seen_of_mem_dedupGo rest (i :: seen) hmem (List.mem_cons_self i seen)

theorem length_dedupGo_le : ∀ (l seen : List Int), (dedupGo seen l).length ≤ l.length := by
  intro l
  induction l with
  | nil => intro seen; simp [dedupGo]
  | cons i rest ih =>
      intro seen
      rw [dedupGo]
      by_cases hi : i ∈ seen
      · rw [if_pos hi]
        exact Nat.le_trans (ih seen) (Nat.le_succ _)
      · rw [if_neg hi]
        simpa using Nat.succ_le_succ (ih (i :: seen))

theorem dedup_ids_cons (x : Int) (l : List Int) :
    dedup_ids (x :: l) = x :: dedupGo [x] l := by
  simp [dedup_ids, dedupGo]

/-! ### Lemmas about the stable descending sort -/

theorem mem_insertScored {z p : Int × Int} :
    ∀ (l : List (Int × Int)), z ∈ insertScored p l → z = p ∨ z ∈ l := by
  intro l
  induction l with
  | nil => intro h; simpa [insertScored] using h
  | cons q l ih =>
      intro h
      rw [insertScored] at h
      by_cases hq : q.2 ≤ p.2
      · rw [if_pos hq, List.mem_cons] at h
        rcases h with h | h
        · exact Or.inl h
        · exact Or.inr h
      · rw [if_neg hq, List.mem_cons] at h
        rcases h with h | h
        · exact Or.inr (by simp [h])
        · rcases ih h with h' | h'
          · exact Or.inl h'
          · exact Or.inr (List.mem_cons_of_mem _ h')

theorem length_insertScored (p : Int × Int) :
    ∀ (l : List (Int × Int)), (insertScored p l).length = l.length + 1 := by
  intro l
  induction l with
  | nil => simp [insertScored]
  | cons q l ih =>
      rw [insertScored]
      by_cases hq : q.2 ≤ p.2
      · rw [if_pos hq]; simp
      · rw [if_neg hq]; simp [ih]

theorem length_sortByScoreDesc :
    ∀ (l : List (Int × Int)), (sortByScoreDesc l).length = l.length := by
  intro l
  induction l with
  | nil => rfl
  | cons p l ih => rw [sortByScoreDesc, length_insertScored, ih, List.length_cons]

theorem pairwise_insertScored (p : Int × Int) :
    ∀ (l : List (Int × Int)),
      l.Pairwise (fun a b : Int × Int => b.2 ≤ a.2) →
      (insertScored p l).Pairwise (fun a b : Int × Int => b.2 ≤ a.2) := by
  intro l
  induction l with
  | nil => intro _; simp [insertScored]
  | cons q l ih =>
      intro hl
      rw [List.pairwise_cons] at hl
      rw [insertScored]
      by_cases hq : q.2 ≤ p.2
      · rw [if_pos hq]
        refine List.pairwise_cons.2 ⟨?_, List.pairwise_cons.2 hl⟩
        intro z hz
        rcases List.mem_cons.1 hz with h | h
        · simpa [h] using hq
        · exact le_trans (hl.1 z h) hq
      · rw [if_neg hq]
        refine List.pairwise_cons.2 ⟨?_, ih hl.2⟩
        intro z hz
        rcases mem_insertScored _ hz with h | h
        · subst h; exact le_of_not_le hq
        · exact hl.1 z h

theorem sortByScoreDesc_pairwise :
    ∀ (l : List (Int × Int)),
      (sortByScoreDesc l).Pairwise (fun a b : Int × Int => b.2 ≤ a.2) := by
  intro l
  induction l with
  | nil => simp [sortByScoreDesc]
  | cons p l ih => exact pairwise_insertScored p _ ih

theorem filter_insertScored (p : Int × Int) (s : Int) :
    ∀ (l : List (Int × Int)),
      (insertScored p l).filter (fun q => q.2 == s) =
        if p.2 == s then p :: l.filter (fun q => q.2 == s)
        else l.filter (fun q => q.2 == s) := by
  intro l
  induction l with
  | nil => by_cases hp : p.2 == s <;> simp [insertScored, List.filter, hp]
  | cons q l ih =>
      rw [insertScored]
      by_cases hq : q.2 ≤ p.2
      · rw [if_pos hq]
        by_cases hp : (p.2 == s) = true
        · rw [if_pos hp, List.filter_cons, if_pos hp]
        · rw [if_neg hp, List.filter_cons, if_neg hp]
      · rw [if_neg hq]
        by_cases hp : (p.2 == s) = true
        · have hps : p.2 = s := by simpa using hp
          have hqs : ¬ ((q.2 == s) = true) := by
            have hlt : s < q.2 := hps ▸ lt_of_not_le hq
            simp [ne_of_gt hlt]
          rw [if_pos hp, List.filter_cons, if_neg hqs, List.filter_cons, if_neg hqs,
            ih, if_pos hp]
        · rw [if_neg hp, List.filter_cons, List.filter_cons, ih, if_neg hp]

theorem filter_sortByScoreDesc (s : Int) :
    ∀ (l : List (Int × Int)),
      (sortByScoreDesc l).filter (fun q => q.2 == s) = l.filter (fun q => q.2 == s) := by
  intro l
  induction l with
  | nil => rfl
  | cons p l ih =>
      rw [sortByScoreDesc, filter_insertScored]
      by_cases hp : (p.2 == s) = true
      · rw [if_pos hp, ih, List.filter_cons, if_pos hp]
      · rw [if_neg hp, ih, List.filter_cons, if_neg hp]

/-! ### Lemmas about pooling and the endpoints -/

theorem poolLoop_fst_of_failed (sim : Int → Resp (List Int × List Int)) :
    ∀ (events : List Int) (acc : List Int × List Int),
      (∀ t ∈ events, SimFailedOrEmpty (sim t)) →
      (events.foldl (fun acc t => poolStep acc (sim t)) acc).1 = acc.1 := by
  intro events
  induction events with
  | nil => intro acc _; rfl
  | cons t ts ih =>
      intro acc hall
      have hstep : (poolStep acc (sim t)).1 = acc.1 := by
        rcases hall t (List.mem_cons_self t ts) with h | h | ⟨scs, h⟩ <;>
          simp [poolStep, h]
      rw [List.foldl_cons,
        ih (poolStep acc (sim t)) (fun u hu => hall u (List.mem_cons_of_mem _ hu)), hstep]

theorem poolSimilar_fst_of_failed (sim : Int → Resp (List Int × List Int))
    (events : List Int) (hall : ∀ t ∈ events, SimFailedOrEmpty (sim t)) :
    (poolSimilar sim events).1 = [] :=
  poolLoop_fst_of_failed sim events ([], []) hall

theorem onlineFromEvents_of_failed (sim : Int → Resp (List Int × List Int))
    (events : List Int) (hall : ∀ t ∈ events, SimFailedOrEmpty (sim t)) :
    onlineFromEvents sim events = [] := by
  simp [onlineFromEvents, poolSimilar_fst_of_failed sim events hall,
    sortByScoreDesc, dedup_ids, dedupGo]

theorem length_onlineFromEvents_le (sim : Int → Resp (List Int × List Int))
    (events : List Int) :
    (onlineFromEvents sim events).length ≤ (poolSimilar sim events).1.length := by
  unfold onlineFromEvents
  refine Nat.le_trans (length_dedupGo_le _ []) ?_
  rw [List.length_map, length_sortByScoreDesc, List.length_zip]
  exact Nat.min_le_left _ _

theorem recommendations_online_ok (env : Env) (events : List Int)
    (h : env.histResp = .ok events) :
    recommendations_online env =
      if events.isEmpty then [] else onlineFromEvents env.simResp events := by
  unfold recommendations_online recommendations_online_handler catchToEmpty onlineBody
  rw [h]
  by_cases hev : events.isEmpty <;> simp [hev]

theorem drop_min_append (off onl : List Int) :
    off.drop (min off.length onl.length) ++ onl.drop (min off.length onl.length) =
      if off.length < onl.length then onl.drop (min off.length onl.length)
      else off.drop (min off.length onl.length) := by
  by_cases h : off.length < onl.length
  · rw [if_pos h, Nat.min_eq_left (Nat.le_of_lt h), List.drop_length, List.nil_append]
  · rw [if_neg h, Nat.min_eq_right (Nat.le_of_not_lt h), List.drop_length, List.append_nil]

theorem blendRecs_nil_online (off : List Int) (k : Nat) :
    blendRecs off [] k = (dedup_ids off).take k := by
  simp [blendRecs, recsBlended, interleaveLoop]

/-! ### Concrete instances used by witnesses and counterexamples -/

/-- Environment in which the user's history has two tracks and the
features service answers each history track with a single distinct
candidate, as it would when queried with `k = 1`. -/
def envC4 : Env where
  histResp := .ok [1, 2]
  simResp := fun t =>
    if t = 1 then .ok ([100], [5]) else if t = 2 then .ok ([200], [4]) else .exn
  store := { personal := fun _ => none, defaultList := [] }

/-- Environment in which the similarity call raises for every track. -/
def envC5 : Env where
  histResp := .ok [7]
  simResp := fun _ => .exn
  store := { personal := fun _ => none, defaultList := [] }

/-- Offline store with one personal entry (user 5) and a default list. -/
def storeC6 : Recommendations where
  personal := fun u => if u = 5 then some [7, 8, 9] else none
  defaultList := [1, 2, 3]

/-! ### Claim theorems -/

/-- C1: the blended result of the `/recommendations` endpoint equals
the specification algorithm — interleave the two lists pairwise up to
the minimum length starting with the offline entry, append the
remainder of the longer list in order, deduplicate keeping first
occurrences, truncate to `k`; moreover offline `[A,B,C]` with online
`[X,Y]` and `k = 10` yields `[A,X,B,Y,C]`, and offline `[A,B]` with
online `[A,C]` yields `[A,B,C]`. -/
theorem blend_matches_spec :
    (∀ (off onl : List Int) (k : Nat), blendRecs off onl k = specBlend off onl k) ∧
    blendRecs [1, 2, 3] [10, 11] 10 = [1, 10, 2, 11, 3] ∧
    blendRecs [1, 2] [1, 3] 100 = [1, 2, 3] := by
  refine ⟨?_, by decide, by decide⟩
  intro off onl k
  simp only [blendRecs, specBlend, recsBlended]
  rw [List.append_assoc, drop_min_append]

/-- C2: for every pair of input lists and every `k`, the blended result
of the `/recommendations` endpoint contains no track id twice. -/
theorem blend_result_nodup :
    ∀ (off onl : List Int) (k : Nat), (blendRecs off onl k).Nodup := by
  intro off onl k
  exact (List.take_sublist k _).nodup (nodup_dedupGo _ [])

/-- C3: the blended result has length at most `k`, and `k = 0` yields
the empty list. -/
theorem blend_length_le_k :
    ∀ (off onl : List Int) (k : Nat),
      (blendRecs off onl k).length ≤ k ∧ blendRecs off onl 0 = [] := by
  intro off onl k
  refine ⟨?_, rfl⟩
  simp only [blendRecs, List.length_take]
  exact Nat.min_le_left _ _

/-- C4 counterexample: with a two-track history and one candidate per
similarity response (the provider honouring `k = 1`), the list returned
by `/recommendations_online` has length 2 > 1 — the endpoint never
truncates its result to `k`. -/
theorem online_length_exceeds_k_cex :
    ¬ ((recommendations_online envC4).length ≤ 1) := by decide

/-- C4 amended: the list returned by `/recommendations_online` has
length at most the number of candidates pooled from the similarity
responses (the endpoint performs no truncation to `k`). -/
theorem online_length_le_pooled :
    ∀ (env : Env) (events : List Int),
      env.histResp = .ok events →
      (recommendations_online env).length ≤ (poolSimilar env.simResp events).1.length := by
  intro env events h
  rw [recommendations_online_ok env events h]
  by_cases hev : events.isEmpty
  · simp [hev]
  · rw [if_neg hev]
    exact length_onlineFromEvents_le _ _

/-- C4 amended, witness at the concrete environment `envC4`. -/
theorem online_length_le_pooled_witness :
    envC4.histResp = .ok [1, 2] ∧
    (recommendations_online envC4).length ≤ (poolSimilar envC4.simResp [1, 2]).1.length :=
  ⟨rfl, online_length_le_pooled envC4 [1, 2] rfl⟩

/-- C5: if the similarity call fails or returns an empty candidate list
for every track of the history, the online list is empty and the blend
equals the offline list deduplicated and truncated to `k`. -/
theorem sim_failure_degrades_to_offline :
    ∀ (env : Env) (events off : List Int) (k : Nat),
      env.histResp = .ok events →
      (∀ t ∈ events, SimFailedOrEmpty (env.simResp t)) →
      recommendations_online env = [] ∧
      blendRecs off (recommendations_online env) k = (dedup_ids off).take k := by
  intro env events off k hh hall
  have hon : recommendations_online env = [] := by
    rw [recommendations_online_ok env events hh]
    by_cases hev : events.isEmpty
    · rw [if_pos hev]
    · rw [if_neg hev, onlineFromEvents_of_failed _ _ hall]
  exact ⟨hon, by rw [hon, blendRecs_nil_online]⟩

/-- C5 witness: in `envC5` every similarity call raises, the online
list is empty, and the blend passes the offline list through. -/
theorem sim_failure_degrades_to_offline_witness :
    envC5.histResp = .ok [7] ∧
    recommendations_online envC5 = [] ∧
    blendRecs [1, 2] (recommendations_online envC5) 2 = (dedup_ids [1, 2]).take 2 := by
  have h := sim_failure_degrades_to_offline envC5 [7] [1, 2] 2 rfl (fun t _ => Or.inl rfl)
  exact ⟨rfl, h.1, h.2⟩

/-- C6: the offline lookup returns the user's personal list truncated
to `k` when one exists, and the global default list truncated to `k`
otherwise. -/
theorem offline_get_personal_or_default :
    ∀ (store : Recommendations) (user_id : Int) (k : Nat),
      (store.personal user_id = none →
        store.get user_id k = store.defaultList.take k) ∧
      (∀ l, store.personal user_id = some l → store.get user_id k = l.take k) := by
  intro store u k
  constructor
  · intro h; simp [Recommendations.get, h]
  · intro l h; simp [Recommendations.get, h]

/-- C6 witness: on `storeC6`, user 5 gets their personal list truncated
to 2 and user 6 falls back to the default list truncated to 2. -/
theorem offline_get_personal_or_default_witness :
    storeC6.personal 5 = some [7, 8, 9] ∧
    storeC6.get 5 2 = ([7, 8, 9] : List Int).take 2 ∧
    storeC6.personal 6 = none ∧
    storeC6.get 6 2 = storeC6.defaultList.take 2 :=
  ⟨by decide, (offline_get_personal_or_default storeC6 5 2).2 [7, 8, 9] (by decide),
   by decide, (offline_get_personal_or_default storeC6 6 2).1 (by decide)⟩

/-- C7: for every environment, user and `k`, both the
`/recommendations_online` and the `/recommendations` handlers return
normally (the outer catch turns every raised error into an ordinary,
possibly empty, list). -/
theorem handlers_never_error :
    ∀ (env : Env) (user_id : Int) (k : Nat),
      (∃ l, recommendations_online_handler env = Except.ok l) ∧
      (∃ l, recommendations_handler env user_id k = Except.ok l) := by
  intro env u k
  constructor
  · unfold recommendations_online_handler catchToEmpty
    cases onlineBody env with
    | ok l => exact ⟨l, rfl⟩
    | error e => exact ⟨[], rfl⟩
  · exact ⟨_, rfl⟩

/-- C8: the sort applied to the pooled candidate pairs of the online
assembly orders them by score descending and is stable — pairs with
equal score keep the relative order in which they were pooled. -/
theorem online_sort_desc_stable :
    ∀ (sim : Int → Resp (List Int × List Int)) (events : List Int) (s : Int),
      (sortByScoreDesc ((poolSimilar sim events).1.zip (poolSimilar sim events).2)).Pairwise
        (fun a b : Int × Int => b.2 ≤ a.2) ∧
      (sortByScoreDesc ((poolSimilar sim events).1.zip (poolSimilar sim events).2)).filter
          (fun q => q.2 == s) =
        ((poolSimilar sim events).1.zip (poolSimilar sim events).2).filter
          (fun q => q.2 == s) :=
  fun _ _ s => ⟨sortByScoreDesc_pairwise _, filter_sortByScoreDesc s _⟩

/-- C9: when the offline list is non-empty and `k ≥ 1`, the first entry
of the blended result is the first entry of the offline list. -/
theorem blend_head_is_offline_head :
    ∀ (off onl : List Int) (k : Nat), off ≠ [] → 1 ≤ k →
      (blendRecs off onl k).head? = off.head? := by
  intro off onl k hoff hk
  obtain ⟨k', rfl⟩ : ∃ k', k = k' + 1 := ⟨k - 1, (Nat.succ_pred_eq_of_pos hk).symm⟩
  obtain ⟨x, xs, rfl⟩ := List.exists_cons_of_ne_nil hoff
  have hhead : (recsBlended (x :: xs) onl).head? = some x := by
    cases onl with
    | nil => simp [recsBlended, interleaveLoop]
    | cons y ys =>
        simp only [recsBlended]
        rw [interleaveLoop_min_eq, interleaveAux]
        simp
  cases hb : recsBlended (x :: xs) onl with
  | nil => rw [hb] at hhead; simp at hhead
  | cons a t =>
      rw [hb, List.head?_cons] at hhead
      have hax : a = x := Option.some.inj hhead
      show ((dedup_ids (recsBlended (x :: xs) onl)).take (k' + 1)).head? = _
      rw [hb, dedup_ids_cons, List.take_succ_cons, List.head?_cons, hax, List.head?_cons]

/-- C9 witness at offline `[1,2]`, online `[3]`, `k = 5`. -/
theorem blend_head_is_offline_head_witness :
    ([1, 2] : List Int) ≠ [] ∧ 1 ≤ 5 ∧
    (blendRecs [1, 2] [3] 5).head? = ([1, 2] : List Int).head? :=
  ⟨by decide, by decide, blend_head_is_offline_head [1, 2] [3] 5 (by decide) (by decide)⟩

/-- C10: every track id of the blended result occurs in the offline
input or in the online input — the blend fabricates no identifier. -/
theorem blend_mem_of_sources :
    ∀ (off onl : List Int) (k : Nat) (x : Int),
      x ∈ blendRecs off onl k → x ∈ off ∨ x ∈ onl := by
  intro off onl k x hx
  have h1 : x ∈ dedup_ids (recsBlended off onl) := List.mem_of_mem_take hx
  have h2 : x ∈ recsBlended off onl := mem_of_mem_dedupGo _ _ h1
  simp only [recsBlended] at h2
  rw [interleaveLoop_min_eq] at h2
  rcases List.mem_append.1 h2 with h | h
  · rcases List.mem_append.1 h with h' | h'
    · exact mem_interleaveAux _ _ h'
    · exact Or.inl (List.drop_subset _ _ h')
  · exact Or.inr (List.drop_subset _ _ h)

/-- C10 witness at offline `[1]`, online `[]`, `k = 1`, id `1`. -/
theorem blend_mem_of_sources_witness :
    (1 : Int) ∈ ([1] : List Int) ∨ (1 : Int) ∈ ([] : List Int) :=
  blend_mem_of_sources [1] [] 1 1 (by decide)
